import Mathlib

/-!
# Verification of `ktr/office`: column codec and free-slot finder

Shallow embedding of the two pure algorithms of the repository:

* `src/office/excel.py` — `num2col` / `col2num`, the bijective base-26
  column-letter codec (strings are modelled as `List Char`);
* `src/office/outlook.py` — `Outlook.find_open_slots`, the calendar
  free-slot computation (instants are modelled as minutes since an epoch
  midnight, all in one reference zone, exactly as the source treats its
  UTC-localized datetimes; printed lines are modelled as a list of
  output events).
-/

namespace Office

/-! ## ColumnCodec (`src/office/excel.py`)

`num2col`:
```python
def num2col(num):
    result = []
    while num:
        num, rem = divmod(num-1, 26)
        result[:0] = string.ascii_uppercase[rem]
    return ''.join(result)
```
The loop peels the least-significant bijective-base-26 digit and prepends
its letter; `string.ascii_uppercase[rem]` is the character of code
`65 + rem`.  The recursive form below produces the same string:
the digit peeled first ends up last. -/

def num2col (num : Nat) : List Char :=
  if num = 0 then []
  else num2col ((num - 1) / 26) ++ [Char.ofNat (65 + (num - 1) % 26)]
termination_by num
decreasing_by
  have h1 : (num - 1) / 26 ≤ num - 1 := Nat.div_le_self _ _
  omega

/-- Python's `c in string.ascii_letters` test (the 26 lowercase plus 26 uppercase
ASCII letters). -/
def isAsciiLetter (c : Char) : Bool :=
  (65 ≤ c.toNat && c.toNat ≤ 90) || (97 ≤ c.toNat && c.toNat ≤ 122)

/-- Python's `c.upper()` restricted to where the source applies it:
under the `isAsciiLetter` guard a lowercase ASCII letter is shifted up
by 32, anything else is returned unchanged. -/
def upperChar (c : Char) : Char :=
  if 97 ≤ c.toNat && c.toNat ≤ 122 then Char.ofNat (c.toNat - 32) else c

/-- The body of `col2num`'s loop:
`if c in string.ascii_letters: num = num * 26 + (ord(c.upper()) - ord('A')) + 1`. -/
def col2numStep (num : Nat) (c : Char) : Nat :=
  if isAsciiLetter c then num * 26 + ((upperChar c).toNat - 65) + 1 else num

/-- Source `col2num`:
```python
def col2num(ltr):
    num = 0
    for c in ltr:
        if c in string.ascii_letters:
            num = num * 26 + (ord(c.upper()) - ord('A')) + 1
    return num
```
-/
def col2num (ltr : List Char) : Nat := ltr.foldl col2numStep 0

/-- The loop-variable update of `num2col`: one iteration of
`num, rem = divmod(num-1, 26)` keeps `(num-1) // 26` as the new value. -/
def colStep (n : Nat) : Nat := (n - 1) / 26

/-! ### Basic facts about the codec -/

theorem num2col_zero : num2col 0 = [] := by
  rw [num2col]
  simp

theorem num2col_succ (n : Nat) (h : n ≠ 0) :
    num2col n = num2col ((n - 1) / 26) ++ [Char.ofNat (65 + (n - 1) % 26)] := by
  rw [num2col]
  simp [h]

theorem letter_toNat : ∀ r < 26, (Char.ofNat (65 + r)).toNat = 65 + r := by
  decide

theorem ofNat_toNat_small : ∀ k < 123, (Char.ofNat k).toNat = k := by
  decide

theorem col2num_nil : col2num [] = 0 := rfl

theorem col2num_append (a : List Char) (c : Char) :
    col2num (a ++ [c]) =
      if isAsciiLetter c then col2num a * 26 + ((upperChar c).toNat - 65) + 1
      else col2num a := by
  unfold col2num
  rw [List.foldl_append]
  simp [col2numStep]

/-- Decoding inverts encoding: `col2num (num2col n) = n` (for every `n`,
in particular for every `n ≥ 1`). -/
theorem col2num_num2col (n : Nat) : col2num (num2col n) = n := by
  induction n using Nat.strong_induction_on with
  | _ n ih =>
    by_cases h : n = 0
    · subst h
      rw [num2col_zero, col2num_nil]
    · rw [num2col_succ n h, col2num_append]
      have hr : (n - 1) % 26 < 26 := Nat.mod_lt _ (by omega)
      have htn : (Char.ofNat (65 + (n - 1) % 26)).toNat = 65 + (n - 1) % 26 :=
        letter_toNat _ hr
      have hletter : isAsciiLetter (Char.ofNat (65 + (n - 1) % 26)) = true := by
        unfold isAsciiLetter
        rw [htn]
        simp
        omega
      have hupper : upperChar (Char.ofNat (65 + (n - 1) % 26)) =
          Char.ofNat (65 + (n - 1) % 26) := by
        unfold upperChar
        rw [htn]
        have hcond : (97 ≤ 65 + (n - 1) % 26 && 65 + (n - 1) % 26 ≤ 122) = false := by
          simp
          omega
        rw [hcond]
        simp
      rw [hletter]
      simp only [if_true]
      rw [hupper, htn]
      have ihm : col2num (num2col ((n - 1) / 26)) = (n - 1) / 26 := by
        apply ih
        have h1 : (n - 1) / 26 ≤ n - 1 := Nat.div_le_self _ _
        omega
      rw [ihm]
      omega

/-- Encoding inverts decoding on well-formed labels (strings over the
uppercase ASCII letters; the empty case holds trivially since
`col2num [] = 0` and `num2col 0 = []`). -/
theorem num2col_col2num (s : List Char) :
    (∀ c ∈ s, 65 ≤ c.toNat ∧ c.toNat ≤ 90) → num2col (col2num s) = s := by
  induction s using List.reverseRecOn with
  | nil =>
    intro _
    rw [col2num_nil, num2col_zero]
  | append_singleton a c ih =>
    intro h
    have hc : 65 ≤ c.toNat ∧ c.toNat ≤ 90 := h c (by simp)
    have hletter : isAsciiLetter c = true := by
      unfold isAsciiLetter
      simp
      omega
    have hupper : upperChar c = c := by
      unfold upperChar
      have hcond : (97 ≤ c.toNat && c.toNat ≤ 122) = false := by
        simp
        omega
      rw [hcond]
      simp
    rw [col2num_append, hletter]
    simp only [if_true]
    rw [hupper]
    have hne : col2num a * 26 + (c.toNat - 65) + 1 ≠ 0 := by omega
    rw [num2col_succ _ hne]
    have hdiv : (col2num a * 26 + (c.toNat - 65) + 1 - 1) / 26 = col2num a := by
      omega
    have hmod : (col2num a * 26 + (c.toNat - 65) + 1 - 1) % 26 = c.toNat - 65 := by
      omega
    rw [hdiv, hmod]
    have h65 : 65 + (c.toNat - 65) = c.toNat := by omega
    rw [h65, Char.ofNat_toNat]
    have hih : num2col (col2num a) = a := by
      apply ih
      intro d hd
      exact h d (by simp [hd])
    rw [hih]

/-- The normalized letter content of a decoder input: the subsequence of
ASCII-alphabetic characters, uppercased.  `col2num` only looks at this. -/
def letterSeq (s : List Char) : List Char :=
  (s.filter isAsciiLetter).map upperChar

theorem upperChar_upperVal (c : Char) (h : isAsciiLetter c = true) :
    65 ≤ (upperChar c).toNat ∧ (upperChar c).toNat ≤ 90 := by
  unfold isAsciiLetter at h
  unfold upperChar
  simp at h
  by_cases hl : 97 ≤ c.toNat ∧ c.toNat ≤ 122
  · have hcond : (97 ≤ c.toNat && c.toNat ≤ 122) = true := by
      simp
      omega
    rw [hcond]
    simp
    rw [ofNat_toNat_small (c.toNat - 32) (by omega)]
    omega
  · have hcond : (97 ≤ c.toNat && c.toNat ≤ 122) = false := by
      simp
      omega
    rw [hcond]
    simp
    omega

theorem isAsciiLetter_upperChar (c : Char) (h : isAsciiLetter c = true) :
    isAsciiLetter (upperChar c) = true := by
  have hv := upperChar_upperVal c h
  unfold isAsciiLetter
  simp
  omega

theorem upperChar_idem (c : Char) (h : isAsciiLetter c = true) :
    upperChar (upperChar c) = upperChar c := by
  have hv := upperChar_upperVal c h
  set d := upperChar c with hd
  unfold upperChar
  have hcond : (97 ≤ d.toNat && d.toNat ≤ 122) = false := by
    simp
    omega
  rw [hcond]
  simp

/-- The `col2num` fold only looks at the uppercased letter subsequence of
its input: it skips non-letters and uppercases before computing. -/
theorem foldl_col2numStep_letterSeq :
    ∀ (s : List Char) (a : Nat),
      s.foldl col2numStep a = (letterSeq s).foldl col2numStep a := by
  intro s
  induction s with
  | nil =>
    intro a
    rfl
  | cons c s ih =>
    intro a
    by_cases h : isAsciiLetter c = true
    · have hls : letterSeq (c :: s) = upperChar c :: letterSeq s := by
        unfold letterSeq
        simp [h]
      rw [hls]
      simp only [List.foldl_cons]
      rw [ih]
      have hstep : col2numStep a c = col2numStep a (upperChar c) := by
        unfold col2numStep
        rw [h, isAsciiLetter_upperChar c h, upperChar_idem c h]
      rw [hstep]
    · have hfalse : isAsciiLetter c = false := by
        simpa using h
      have hls : letterSeq (c :: s) = letterSeq s := by
        unfold letterSeq
        simp [hfalse]
      rw [hls, List.foldl_cons]
      have hstep : col2numStep a c = a := by
        unfold col2numStep
        rw [hfalse]
        simp
      rw [hstep, ih]

theorem col2num_eq_letterSeq (s : List Char) :
    col2num s = (letterSeq s).foldl col2numStep 0 :=
  foldl_col2numStep_letterSeq s 0

/-! ### Claim theorems for the column codec -/

/-- Claim C1: the column codec is a bijection.  `col2num (num2col n) = n` for
every `n ≥ 1` (so in particular for every `n` in `[1, 10000]`), and
`num2col (col2num s) = s` for every well-formed label `s`, i.e. every
non-empty string over the 26 uppercase letters `A`–`Z` (character codes
65–90). -/
theorem c1_codec_roundtrip :
    (∀ n : Nat, 1 ≤ n → col2num (num2col n) = n) ∧
    (∀ s : List Char, s ≠ [] → (∀ c ∈ s, 65 ≤ c.toNat ∧ c.toNat ≤ 90) →
      num2col (col2num s) = s) :=
  ⟨fun n _ => col2num_num2col n, fun s _ h => num2col_col2num s h⟩

theorem c1_codec_roundtrip_witness :
    col2num (num2col 10000) = 10000 ∧
      num2col (col2num ['A', 'B']) = ['A', 'B'] :=
  ⟨c1_codec_roundtrip.1 10000 (by decide),
   c1_codec_roundtrip.2 ['A', 'B'] (by decide) (by decide)⟩

/-- Claim C6: `col2num` is case-insensitive and silently skips non-letter
characters: any two inputs that agree on their uppercased subsequence of
ASCII-alphabetic characters decode to the same index, and any input with
zero alphabetic characters (including the empty string) decodes to `0`
(totally, without any error). -/
theorem c6_decode_tolerant :
    (∀ s t : List Char, letterSeq s = letterSeq t → col2num s = col2num t) ∧
    (∀ s : List Char, (∀ c ∈ s, isAsciiLetter c = false) → col2num s = 0) := by
  constructor
  · intro s t h
    rw [col2num_eq_letterSeq s, col2num_eq_letterSeq t, h]
  · intro s h
    rw [col2num_eq_letterSeq s]
    have hnil : letterSeq s = [] := by
      unfold letterSeq
      have : s.filter isAsciiLetter = [] := by
        rw [List.filter_eq_nil_iff]
        intro c hc
        simp [h c hc]
      rw [this]
      rfl
    rw [hnil]
    rfl

theorem c6_decode_tolerant_witness :
    col2num ['A', 'b', '1'] = col2num ['a', 'b'] ∧ col2num ['1'] = 0 :=
  ⟨c6_decode_tolerant.1 ['A', 'b', '1'] ['a', 'b'] (by decide),
   c6_decode_tolerant.2 ['1'] (by decide)⟩

/-- Claim C8: `num2col 0` terminates immediately and returns the empty label:
the `while num:` loop guard is already false, so the body that peels
`(num - 1) % 26` digits never executes. -/
theorem c8_num2col_zero_empty : num2col 0 = [] := num2col_zero

/-- One loop iteration strictly shrinks the loop variable (`n ≥ 1`). -/
theorem colStep_lt (n : Nat) (h : 1 ≤ n) : colStep n < n := by
  unfold colStep
  have h1 : (n - 1) / 26 ≤ n - 1 := Nat.div_le_self _ _
  omega

theorem colStep_iter_zero : ∀ k : Nat, ∀ m : Nat, m ≤ k → colStep^[k] m = 0 := by
  intro k
  induction k with
  | zero =>
    intro m hm
    simpa using hm
  | succ k ih =>
    intro m hm
    rw [Function.iterate_succ_apply]
    apply ih
    unfold colStep
    have h1 : (m - 1) / 26 ≤ m - 1 := Nat.div_le_self _ _
    omega

/-- Claim C10: for every `n ≥ 1` the `num2col` loop terminates: its update
`n := (n - 1) / 26` (`colStep`) strictly decreases the loop variable,
which therefore reaches `0` after at most `n` iterations. -/
theorem c10_num2col_terminates (n : Nat) (h : 1 ≤ n) :
    colStep n < n ∧ colStep^[n] n = 0 :=
  ⟨colStep_lt n h, colStep_iter_zero n n (Nat.le_refl n)⟩

theorem c10_num2col_terminates_witness :
    colStep 703 < 703 ∧ colStep^[703] 703 = 0 :=
  c10_num2col_terminates 703 (by decide)

/-! ## FreeSlotFinder (`src/office/outlook.py`, `Outlook.find_open_slots`)

Instants are modelled as minutes since an epoch midnight.  All datetimes
in the source carry the same zone (`pytz.UTC`), so comparison of
datetimes is numeric comparison of these minute counts. -/

/-- Python `t.hour` of a datetime. -/
def hourOf (t : Nat) : Nat := t / 60 % 24

/-- The calendar date of an instant, as an absolute day index.  The
source compares `.day` (day-of-month), which agrees with this on
same-month spans; the comparison only controls date-header lines. -/
def dayOf (t : Nat) : Nat := t / 1440

/-- Source `datetime(start.year, start.month, start.day, 9)`: 09:00 on the date
of `t`. -/
def dayStartOf (t : Nat) : Nat := dayOf t * 1440 + 9 * 60

/-- Source `datetime(end.year, end.month, end.day, 18)`: 18:00 on the date of
`t`. -/
def dayEndOf (t : Nat) : Nat := dayOf t * 1440 + 18 * 60

/-- Python's `<=` on `(datetime, datetime)` tuples: lexicographic order.
This is the order `sorted` uses on the marker list.  It is total,
transitive and antisymmetric, so the sorted result is unique and any
correct sorting algorithm models `sorted` exactly. -/
def pairle (a b : Nat × Nat) : Prop := a.1 < b.1 ∨ (a.1 = b.1 ∧ a.2 ≤ b.2)

instance pairleDec : DecidableRel pairle := fun a b =>
  if h1 : a.1 < b.1 then isTrue (Or.inl h1)
  else if h2 : a.1 = b.1 ∧ a.2 ≤ b.2 then isTrue (Or.inr h2)
  else isFalse (fun h => h.elim h1 h2)

instance pairleTotal : IsTotal (Nat × Nat) pairle :=
  ⟨fun a b => by unfold pairle; omega⟩

instance pairleTrans : IsTrans (Nat × Nat) pairle :=
  ⟨fun a b c => by unfold pairle; omega⟩

/-- The gap-subdivision loop of `find_open_slots`:
```python
while start + duration <= end:
    open_slots.append([start, start + duration])
    start += duration
```
The structural fuel argument bounds the iteration count;
`subdivide_eq` proves that with the fuel used by `subdivide` the bound
is never hit for a positive duration, so this is exactly the source
loop (which does not terminate for `duration <= 0`). -/
def subdivideAux : Nat → Nat → Nat → Nat → List (Nat × Nat)
  | 0, _, _, _ => []
  | fuel + 1, d, s, e =>
    if s + d ≤ e then (s, s + d) :: subdivideAux fuel d (s + d) e else []

/-- All the fixed-`d` slots of the gap `[s, e]`. -/
def subdivide (d s e : Nat) : List (Nat × Nat) := subdivideAux (e + 1 - s) d s e

/-- Source `((slots[i][1], slots[i+1][0]) for i in range(len(slots)-1))`: the
candidate gap between the end of each marker and the start of the
next. -/
def adjacentGaps : List (Nat × Nat) → List (Nat × Nat)
  | a :: b :: rest => (a.2, b.1) :: adjacentGaps (b :: rest)
  | _ => []

/-- The `open_slots` list built by the two nested loops of
`find_open_slots`. -/
def openSlots (markers : List (Nat × Nat)) (d : Nat) : List (Nat × Nat) :=
  (adjacentGaps markers).flatMap (fun g => subdivide d g.1 g.2)

/-- One printed line of `find_open_slots`: a `%Y-%m-%d` date-header line
or a `%I:%M %p to %I:%M %p` free-range line (we record the instants the
line formats). -/
inductive OutEvent where
  | header (day : Nat)
  | range (s e : Nat)
deriving DecidableEq

/-- The state of the merge-and-print loop: `cur` models the Python local
`this` (the current candidate range), `out` the lines printed so far. -/
structure MergeState where
  cur : Nat × Nat
  out : List OutEvent
deriving DecidableEq

/-- One iteration of `for slot in open_slots[1:]`, where
`hlo = hours[0].hour` and `hhi = hours[1].hour`:
```python
if slot[0].hour < hours[0].hour or slot[0].hour > hours[1].hour:
    continue
if slot[1].hour < hours[0].hour or slot[1].hour > hours[1].hour:
    continue
if slot[0] <= this[1]:
    this[1] = slot[1]
else:
    print(f'  {this[0]:%I:%M %p} to {this[1]:%I:%M %p}')
    if this[0].day != slot[0].day:
        print(f'\n{this[0]:%Y-%m-%d}')
    this = slot
```
-/
def mergeStep (hlo hhi : Nat) (st : MergeState) (slot : Nat × Nat) : MergeState :=
  if hourOf slot.1 < hlo ∨ hourOf slot.1 > hhi then st
  else if hourOf slot.2 < hlo ∨ hourOf slot.2 > hhi then st
  else if slot.1 ≤ st.cur.2 then ⟨(st.cur.1, slot.2), st.out⟩
  else
    let out1 := st.out ++ [OutEvent.range st.cur.1 st.cur.2]
    let out2 :=
      if dayOf st.cur.1 ≠ dayOf slot.1 then out1 ++ [OutEvent.header (dayOf st.cur.1)]
      else out1
    ⟨slot, out2⟩

/-- The unguarded faults of the source: `appts[0]` on an empty
appointment list and `open_slots[0]` on an empty slot list both raise
`IndexError`.  The source defines no other error. -/
inductive FindError where
  | indexError
deriving DecidableEq

/-- The derived `hours` pair of `find_open_slots` on a non-empty
appointment list `a :: rest`: 09:00 on the date of `appts[0][0]` and
18:00 on the date of `appts[-1][1]`. -/
def windowOf (a : Nat × Nat) (rest : List (Nat × Nat)) : Nat × Nat :=
  (dayStartOf a.1, dayEndOf ((a :: rest).getLastD a).2)

/-- The sorted marker list
`slots = sorted([(hours[0], hours[0])] + appts + [(hours[1], hours[1])])`. -/
def markersOf (a : Nat × Nat) (rest : List (Nat × Nat)) : List (Nat × Nat) :=
  List.insertionSort pairle
    (((windowOf a rest).1, (windowOf a rest).1) ::
      ((a :: rest) ++ [((windowOf a rest).2, (windowOf a rest).2)]))

/-- Source `Outlook.find_open_slots(appts, duration=None)`.  Returns the
sequence of printed lines, or the `IndexError` fault of the source.
Note the final candidate range `this` is *not* printed when the loop
ends: the source only prints on a flush. -/
def find_open_slots (appts : List (Nat × Nat)) (dur : Option Nat) :
    Except FindError (List OutEvent) :=
  match appts with
  | [] => Except.error FindError.indexError
  | a :: rest =>
    match openSlots (markersOf a rest) (dur.getD 30) with
    | [] => Except.error FindError.indexError
    | s0 :: srest =>
      Except.ok
        ((srest.foldl
            (mergeStep (hourOf (windowOf a rest).1) (hourOf (windowOf a rest).2))
            ⟨s0, [OutEvent.header (dayOf s0.1)]⟩).out)

/-- The free-range lines among the printed lines. -/
def rangesOf (evs : List OutEvent) : List (Nat × Nat) :=
  evs.filterMap (fun e =>
    match e with
    | OutEvent.range s t => some (s, t)
    | OutEvent.header _ => none)

/-! ### Claim theorems for the free-slot finder: concrete runs -/

/-- Claim C2: on appointments 10:00–10:30 and 14:00–15:00 (same date, default
30-minute duration, derived window 09:00–18:00) the source prints only
the merged ranges 09:00–10:00 (540–600) and 10:30–14:00 (630–840).  The
third required range 15:00–18:00 (900–1080) is accumulated into `this`
but the loop ends without a final flush, so it is never printed — the
code drops the last merged free range the claim requires. -/
theorem c2_example_missing_final_range :
    (find_open_slots [(600, 630), (840, 900)] none).map rangesOf =
      Except.ok [(540, 600), (630, 840)] := rfl

/-- Claim C3: the source has no `EmptyScheduleError`; on an empty appointment
list it fails on the unguarded first-element access `appts[0]` (an
`IndexError`), for every duration argument. -/
theorem c3_empty_appts_index_fault (dur : Option Nat) :
    find_open_slots [] dur = Except.error FindError.indexError := rfl

/-- Claim C4: a single appointment exactly filling the 09:00–18:00 window
(540–1080) makes the subdivision step emit zero slots, and the source
then crashes on the unguarded first-element access `open_slots[0]`
instead of yielding a `NoFreeTimeError` / empty result. -/
theorem c4_full_window_index_fault :
    find_open_slots [(540, 1080)] none = Except.error FindError.indexError := rfl

/-- Claim C5 (counterexample): the hour filter is never applied to the first
emitted slot.  For the single appointment 07:00–07:15 (420–435) the
first emitted slot is 07:15–07:45 (435–465); both its hours are outside
the window's hour range `[9, 18]`, yet it is reported — refuting the
claim that every emitted candidate slot with an out-of-range start or
end hour is excluded from the reported output. -/
theorem c5_counterexample_first_slot_reported :
    (find_open_slots [(420, 435)] none).map rangesOf = Except.ok [(435, 465)] ∧
      hourOf 435 < 9 ∧ hourOf 465 < 9 :=
  ⟨rfl, by decide, by decide⟩

/-- Claim C5 (amended): in the merge-and-filter loop every candidate slot
*after the first* whose start hour-of-day or end hour-of-day falls
outside `[hlo, hhi]` (`[dayStart.hour, dayEnd.hour]`) is skipped
entirely: it changes neither the current range nor the printed output.
(The first emitted slot seeds `this` before the loop and is never
filtered.) -/
theorem c5_merge_filter_excludes (hlo hhi : Nat) (st : MergeState) (slot : Nat × Nat)
    (h : hourOf slot.1 < hlo ∨ hourOf slot.1 > hhi ∨
      hourOf slot.2 < hlo ∨ hourOf slot.2 > hhi) :
    mergeStep hlo hhi st slot = st := by
  unfold mergeStep
  by_cases h1 : hourOf slot.1 < hlo ∨ hourOf slot.1 > hhi
  · rw [if_pos h1]
  · rw [if_neg h1]
    have h2 : hourOf slot.2 < hlo ∨ hourOf slot.2 > hhi := by
      rcases h with h | h | h | h
      · exact absurd (Or.inl h) h1
      · exact absurd (Or.inr h) h1
      · exact Or.inl h
      · exact Or.inr h
    rw [if_pos h2]

theorem c5_merge_filter_excludes_witness :
    mergeStep 9 18 ⟨(540, 570), []⟩ (420, 450) = ⟨(540, 570), []⟩ :=
  c5_merge_filter_excludes 9 18 ⟨(540, 570), []⟩ (420, 450) (by decide)

/-! ### Structural facts about the slot lists (towards C7) -/

/-- The fuel of `subdivide` is never exhausted for a positive duration:
the fuel formulation satisfies the natural recurrence of the source
`while` loop. -/
theorem subdivideAux_fuel_irrelevant (d : Nat) (hd : 0 < d) :
    ∀ f1 f2 s e, e + 1 - s ≤ f1 → e + 1 - s ≤ f2 →
      subdivideAux f1 d s e = subdivideAux f2 d s e := by
  intro f1
  induction f1 with
  | zero =>
    intro f2 s e h1 h2
    have hse : e < s := by omega
    have hno : ¬ s + d ≤ e := by omega
    cases f2 with
    | zero => rfl
    | succ f2 =>
      unfold subdivideAux
      rw [if_neg hno]
  | succ f1 ih =>
    intro f2 s e h1 h2
    cases f2 with
    | zero =>
      have hse : e < s := by omega
      have hno : ¬ s + d ≤ e := by omega
      unfold subdivideAux
      rw [if_neg hno]
    | succ f2 =>
      unfold subdivideAux
      by_cases hle : s + d ≤ e
      · rw [if_pos hle, if_pos hle, ih f2 (s + d) e (by omega) (by omega)]
      · rw [if_neg hle, if_neg hle]

theorem subdivide_eq (d s e : Nat) (hd : 0 < d) :
    subdivide d s e =
      if s + d ≤ e then (s, s + d) :: subdivide d (s + d) e else [] := by
  unfold subdivide
  by_cases hle : s + d ≤ e
  · rw [if_pos hle]
    cases hf : e + 1 - s with
    | zero =>
      exfalso
      omega
    | succ f =>
      simp only [subdivideAux]
      rw [if_pos hle]
      exact congrArg _
        (subdivideAux_fuel_irrelevant d hd f (e + 1 - (s + d)) (s + d) e (by omega)
          (by omega))
  · rw [if_neg hle]
    cases hf : e + 1 - s with
    | zero =>
      rfl
    | succ f =>
      simp only [subdivideAux]
      rw [if_neg hle]

theorem subdivideAux_mem (d : Nat) :
    ∀ f s e, ∀ p ∈ subdivideAux f d s e, s ≤ p.1 ∧ p.2 = p.1 + d ∧ p.2 ≤ e := by
  intro f
  induction f with
  | zero =>
    intro s e p hp
    simp [subdivideAux] at hp
  | succ f ih =>
    intro s e p hp
    unfold subdivideAux at hp
    by_cases hle : s + d ≤ e
    · rw [if_pos hle] at hp
      rcases List.mem_cons.mp hp with h | h
      · subst h
        exact ⟨Nat.le_refl s, rfl, hle⟩
      · have := ih (s + d) e p h
        exact ⟨by omega, this.2.1, this.2.2⟩
    · rw [if_neg hle] at hp
      simp at hp

theorem subdivide_mem (d s e : Nat) :
    ∀ p ∈ subdivide d s e, s ≤ p.1 ∧ p.2 = p.1 + d ∧ p.2 ≤ e :=
  subdivideAux_mem d (e + 1 - s) s e

theorem subdivideAux_pairwise (d : Nat) :
    ∀ f s e, List.Pairwise (fun a b : Nat × Nat => a.2 ≤ b.1) (subdivideAux f d s e) := by
  intro f
  induction f with
  | zero =>
    intro s e
    simp [subdivideAux]
  | succ f ih =>
    intro s e
    unfold subdivideAux
    by_cases hle : s + d ≤ e
    · rw [if_pos hle]
      refine List.Pairwise.cons ?_ (ih (s + d) e)
      intro q hq
      have := subdivideAux_mem d f (s + d) e q hq
      simpa using this.1
    · rw [if_neg hle]
      simp

theorem subdivide_pairwise (d s e : Nat) :
    List.Pairwise (fun a b : Nat × Nat => a.2 ≤ b.1) (subdivide d s e) :=
  subdivideAux_pairwise d (e + 1 - s) s e

theorem adjacentGaps_fst_mem :
    ∀ l : List (Nat × Nat), ∀ g ∈ adjacentGaps l, ∃ m ∈ l, g.1 = m.2 := by
  intro l
  induction l with
  | nil =>
    intro g hg
    simp [adjacentGaps] at hg
  | cons a l ih =>
    intro g hg
    cases l with
    | nil =>
      simp [adjacentGaps] at hg
    | cons b rest =>
      unfold adjacentGaps at hg
      rcases List.mem_cons.mp hg with h | h
      · subst h
        exact ⟨a, by simp, rfl⟩
      · rcases ih g h with ⟨m, hm, hgm⟩
        exact ⟨m, List.mem_cons_of_mem a hm, hgm⟩

/-- For a marker list that is sorted by start and in which every marker
satisfies `start ≤ end`, each gap ends no later than any later gap
begins. -/
theorem adjacentGaps_pairwise :
    ∀ l : List (Nat × Nat),
      List.Pairwise (fun a b : Nat × Nat => a.1 ≤ b.1) l →
      (∀ m ∈ l, m.1 ≤ m.2) →
      List.Pairwise (fun g g2 : Nat × Nat => g.2 ≤ g2.1) (adjacentGaps l) := by
  intro l
  induction l with
  | nil =>
    intro _ _
    simp [adjacentGaps]
  | cons a l ih =>
    intro hsort hwf
    cases l with
    | nil =>
      simp [adjacentGaps]
    | cons b rest =>
      unfold adjacentGaps
      refine List.Pairwise.cons ?_ (ih hsort.of_cons (fun m hm => hwf m (by simp [hm])))
      intro g hg
      rcases adjacentGaps_fst_mem (b :: rest) g hg with ⟨m, hm, hgm⟩
      have hbm : b.1 ≤ m.1 := by
        rcases List.mem_cons.mp hm with h | h
        · subst h
          exact Nat.le_refl _
        · exact List.rel_of_pairwise_cons hsort.of_cons h
      have hmwf : m.1 ≤ m.2 := hwf m (List.mem_cons_of_mem a hm)
      rw [hgm]
      omega

/-- Bounds of the slots of a single gap, lifted to `openSlots`. -/
theorem openSlots_mem (markers : List (Nat × Nat)) (d : Nat) :
    ∀ p ∈ openSlots markers d,
      ∃ g ∈ adjacentGaps markers, g.1 ≤ p.1 ∧ p.2 = p.1 + d ∧ p.2 ≤ g.2 := by
  intro p hp
  unfold openSlots at hp
  rcases List.mem_flatMap.mp hp with ⟨g, hg, hpg⟩
  exact ⟨g, hg, (subdivide_mem d g.1 g.2 p hpg).1, (subdivide_mem d g.1 g.2 p hpg).2.1,
    (subdivide_mem d g.1 g.2 p hpg).2.2⟩

theorem openSlots_lt (markers : List (Nat × Nat)) (d : Nat) (hd : 0 < d) :
    ∀ p ∈ openSlots markers d, p.1 < p.2 := by
  intro p hp
  rcases openSlots_mem markers d p hp with ⟨g, _, _, hpd, _⟩
  omega

/-- If successive gaps never rewind (each gap ends no later than any
later gap begins), the emitted slot list is chained: every slot ends no
later than any later slot begins. -/
theorem flatMap_subdivide_pairwise (d : Nat) :
    ∀ gs : List (Nat × Nat),
      List.Pairwise (fun g g2 : Nat × Nat => g.2 ≤ g2.1) gs →
      List.Pairwise (fun a b : Nat × Nat => a.2 ≤ b.1)
        (gs.flatMap (fun g => subdivide d g.1 g.2)) := by
  intro gs
  induction gs with
  | nil =>
    intro _
    simp
  | cons g gs ih =>
    intro hgaps
    rw [List.flatMap_cons]
    rw [List.pairwise_append]
    refine ⟨subdivide_pairwise d g.1 g.2, ih hgaps.of_cons, ?_⟩
    intro p hp q hq
    rcases List.mem_flatMap.mp hq with ⟨g2, hg2, hqg2⟩
    have h1 : p.2 ≤ g.2 := (subdivide_mem d g.1 g.2 p hp).2.2
    have h2 : g.2 ≤ g2.1 := List.rel_of_pairwise_cons hgaps hg2
    have h3 : g2.1 ≤ q.1 := (subdivide_mem d g2.1 g2.2 q hqg2).1
    omega

theorem openSlots_pairwise (markers : List (Nat × Nat)) (d : Nat)
    (hgaps : List.Pairwise (fun g g2 : Nat × Nat => g.2 ≤ g2.1) (adjacentGaps markers)) :
    List.Pairwise (fun a b : Nat × Nat => a.2 ≤ b.1) (openSlots markers d) :=
  flatMap_subdivide_pairwise d (adjacentGaps markers) hgaps

/-- The sorted marker list is sorted by start instant. -/
theorem markersOf_sorted_fst (a : Nat × Nat) (rest : List (Nat × Nat)) :
    List.Pairwise (fun x y : Nat × Nat => x.1 ≤ y.1) (markersOf a rest) := by
  have hs : List.Sorted pairle (markersOf a rest) :=
    List.sorted_insertionSort pairle _
  exact hs.imp (fun hab => by unfold pairle at hab; omega)

/-- Every marker is a well-formed interval when every appointment is:
the two sentinels are degenerate `(t, t)` pairs. -/
theorem markersOf_wf (a : Nat × Nat) (rest : List (Nat × Nat))
    (hwf : ∀ p ∈ a :: rest, p.1 ≤ p.2) :
    ∀ m ∈ markersOf a rest, m.1 ≤ m.2 := by
  intro m hm
  unfold markersOf at hm
  rw [List.mem_insertionSort] at hm
  rcases List.mem_cons.mp hm with h | h
  · subst h
    exact Nat.le_refl _
  · rcases List.mem_append.mp h with h | h
    · exact hwf m h
    · rcases List.mem_singleton.mp h with h
      subst h
      exact Nat.le_refl _

/-! ### The merge-and-print loop invariant (towards C7) -/

/-- Effect of one merge iteration on the printed ranges: the invariant
relating the printed ranges, the current candidate `this`, and the next
slot is preserved. -/
theorem mergeStep_invariant (hlo hhi : Nat) (st : MergeState) (slot : Nat × Nat)
    (hslot : st.cur.2 ≤ slot.1) (hlt : slot.1 < slot.2)
    (h4 : List.Pairwise (fun a b : Nat × Nat => a.2 ≤ b.1) (rangesOf st.out))
    (h5 : ∀ r ∈ rangesOf st.out, r.1 < r.2)
    (h6 : ∀ r ∈ rangesOf st.out, r.2 ≤ st.cur.1)
    (h7 : st.cur.1 < st.cur.2) :
    List.Pairwise (fun a b : Nat × Nat => a.2 ≤ b.1)
        (rangesOf (mergeStep hlo hhi st slot).out) ∧
      (∀ r ∈ rangesOf (mergeStep hlo hhi st slot).out, r.1 < r.2) ∧
      (∀ r ∈ rangesOf (mergeStep hlo hhi st slot).out,
        r.2 ≤ (mergeStep hlo hhi st slot).cur.1) ∧
      (mergeStep hlo hhi st slot).cur.1 < (mergeStep hlo hhi st slot).cur.2 ∧
      (mergeStep hlo hhi st slot).cur.2 ≤ slot.2 := by
  unfold mergeStep
  by_cases hf1 : hourOf slot.1 < hlo ∨ hourOf slot.1 > hhi
  · rw [if_pos hf1]
    exact ⟨h4, h5, h6, h7, by omega⟩
  · rw [if_neg hf1]
    by_cases hf2 : hourOf slot.2 < hlo ∨ hourOf slot.2 > hhi
    · rw [if_pos hf2]
      exact ⟨h4, h5, h6, h7, by omega⟩
    · rw [if_neg hf2]
      by_cases hmerge : slot.1 ≤ st.cur.2
      · rw [if_pos hmerge]
        exact ⟨h4, h5, h6, by simp; omega, by simp⟩
      · rw [if_neg hmerge]
        simp only []
        have hout2 :
            rangesOf
                ((if dayOf st.cur.1 ≠ dayOf slot.1 then
                    (st.out ++ [OutEvent.range st.cur.1 st.cur.2]) ++
                      [OutEvent.header (dayOf st.cur.1)]
                  else st.out ++ [OutEvent.range st.cur.1 st.cur.2])) =
              rangesOf st.out ++ [(st.cur.1, st.cur.2)] := by
          by_cases hday : dayOf st.cur.1 ≠ dayOf slot.1
          · rw [if_pos hday]
            unfold rangesOf
            simp
          · rw [if_neg hday]
            unfold rangesOf
            simp
        refine ⟨?_, ?_, ?_, ?_, ?_⟩
        · rw [hout2]
          rw [List.pairwise_append]
          refine ⟨h4, by simp, ?_⟩
          intro x hx y hy
          rcases List.mem_singleton.mp hy with h
          subst h
          exact h6 x hx
        · rw [hout2]
          intro r hr
          rcases List.mem_append.mp hr with h | h
          · exact h5 r h
          · rcases List.mem_singleton.mp h with h
            subst h
            exact h7
        · rw [hout2]
          intro r hr
          rcases List.mem_append.mp hr with h | h
          · have := h6 r h
            simp
            omega
          · rcases List.mem_singleton.mp h with h
            subst h
            simp
            omega
        · simpa using hlt
        · simp

/-- The merge-and-print loop preserves its invariant along the fold. -/
theorem merge_fold_invariant (hlo hhi : Nat) :
    ∀ (rest : List (Nat × Nat)) (st : MergeState),
      List.Pairwise (fun a b : Nat × Nat => a.2 ≤ b.1) rest →
      (∀ p ∈ rest, p.1 < p.2) →
      (∀ p ∈ rest, st.cur.2 ≤ p.1) →
      List.Pairwise (fun a b : Nat × Nat => a.2 ≤ b.1) (rangesOf st.out) →
      (∀ r ∈ rangesOf st.out, r.1 < r.2) →
      (∀ r ∈ rangesOf st.out, r.2 ≤ st.cur.1) →
      st.cur.1 < st.cur.2 →
      List.Pairwise (fun a b : Nat × Nat => a.2 ≤ b.1)
          (rangesOf (rest.foldl (mergeStep hlo hhi) st).out) ∧
        (∀ r ∈ rangesOf (rest.foldl (mergeStep hlo hhi) st).out, r.1 < r.2) := by
  intro rest
  induction rest with
  | nil =>
    intro st _ _ _ h4 h5 _ _
    exact ⟨h4, h5⟩
  | cons slot rest ih =>
    intro st h1 h2 h3 h4 h5 h6 h7
    rw [List.foldl_cons]
    have hslot : st.cur.2 ≤ slot.1 := h3 slot (List.mem_cons_self slot rest)
    have hlt : slot.1 < slot.2 := h2 slot (List.mem_cons_self slot rest)
    have hstep := mergeStep_invariant hlo hhi st slot hslot hlt h4 h5 h6 h7
    refine ih (mergeStep hlo hhi st slot) h1.of_cons
      (fun p hp => h2 p (List.mem_cons_of_mem slot hp)) ?_ hstep.1 hstep.2.1
      hstep.2.2.1 hstep.2.2.2.1
    intro p hp
    have hchain : slot.2 ≤ p.1 := List.rel_of_pairwise_cons h1 hp
    have := hstep.2.2.2.2
    omega

/-- Claim C7: on any well-formed input (appointments with `start ≤ end`, a
positive slot duration) every free range the finder reports satisfies
`start < end`, and the reported ranges are pairwise non-overlapping
(each ends no later than the next begins) and emitted in non-decreasing
start order. -/
theorem c7_reported_ranges_invariant (appts : List (Nat × Nat)) (dur : Option Nat)
    (evs : List OutEvent)
    (hwf : ∀ p ∈ appts, p.1 ≤ p.2) (hdur : 0 < dur.getD 30)
    (hok : find_open_slots appts dur = Except.ok evs) :
    (∀ r ∈ rangesOf evs, r.1 < r.2) ∧
      List.Pairwise (fun a b : Nat × Nat => a.2 ≤ b.1) (rangesOf evs) ∧
      List.Pairwise (fun a b : Nat × Nat => a.1 ≤ b.1) (rangesOf evs) := by
  cases appts with
  | nil =>
    simp [find_open_slots] at hok
  | cons a rest =>
    rw [find_open_slots] at hok
    cases hos : openSlots (markersOf a rest) (dur.getD 30) with
    | nil =>
      rw [hos] at hok
      simp at hok
    | cons s0 srest =>
      rw [hos] at hok
      simp only [Except.ok.injEq] at hok
      have hgaps :
          List.Pairwise (fun g g2 : Nat × Nat => g.2 ≤ g2.1)
            (adjacentGaps (markersOf a rest)) :=
        adjacentGaps_pairwise (markersOf a rest) (markersOf_sorted_fst a rest)
          (markersOf_wf a rest hwf)
      have hchain :
          List.Pairwise (fun x y : Nat × Nat => x.2 ≤ y.1) (s0 :: srest) := by
        rw [← hos]
        exact openSlots_pairwise (markersOf a rest) (dur.getD 30) hgaps
      have hltall : ∀ p ∈ s0 :: srest, p.1 < p.2 := by
        rw [← hos]
        exact openSlots_lt (markersOf a rest) (dur.getD 30) hdur
      have hinv :=
        merge_fold_invariant (hourOf (windowOf a rest).1) (hourOf (windowOf a rest).2)
          srest ⟨s0, [OutEvent.header (dayOf s0.1)]⟩ hchain.of_cons
          (fun p hp => hltall p (List.mem_cons_of_mem s0 hp))
          (fun p hp => List.rel_of_pairwise_cons hchain hp)
          (by simp [rangesOf]) (by simp [rangesOf]) (by simp [rangesOf])
          (hltall s0 (List.mem_cons_self s0 srest))
      rw [← hok]
      refine ⟨hinv.2, hinv.1, ?_⟩
      refine hinv.1.imp_of_mem ?_
      intro x y hx _ hxy
      have hxlt : x.1 < x.2 := hinv.2 x hx
      omega

theorem c7_reported_ranges_invariant_witness :
    (∀ r ∈ rangesOf [OutEvent.header 0, OutEvent.range 540 600,
        OutEvent.range 630 840], r.1 < r.2) ∧
      List.Pairwise (fun a b : Nat × Nat => a.2 ≤ b.1)
        (rangesOf [OutEvent.header 0, OutEvent.range 540 600, OutEvent.range 630 840]) ∧
      List.Pairwise (fun a b : Nat × Nat => a.1 ≤ b.1)
        (rangesOf [OutEvent.header 0, OutEvent.range 540 600, OutEvent.range 630 840]) :=
  c7_reported_ranges_invariant [(600, 630), (840, 900)] none
    [OutEvent.header 0, OutEvent.range 540 600, OutEvent.range 630 840]
    (by decide) (by decide) rfl

/-! ### C9: the appointments argument is left unchanged -/

/-- The call of `find_open_slots` with the caller's appointment-list
object threaded through as explicit state (second component).  The
source reads `appts` in exactly three places — `appts[0]`, `appts[-1]`,
and the concatenation `[(hours[0], hours[0])] + appts + [...]`, which
allocates a fresh list (as does `sorted`) — and contains no statement
that assigns into `appts`; its elements are immutable tuples.  The
in-loop mutation `this[1] = slot[1]` targets the fresh inner lists of
`open_slots` and is modelled functionally by `mergeStep`.  The state
component therefore passes through every branch unchanged. -/
def find_open_slots_call (appts : List (Nat × Nat)) (dur : Option Nat) :
    Except FindError (List OutEvent) × List (Nat × Nat) :=
  match appts with
  | [] => (Except.error FindError.indexError, [])
  | a :: rest =>
    match openSlots (markersOf a rest) (dur.getD 30) with
    | [] => (Except.error FindError.indexError, a :: rest)
    | s0 :: srest =>
      (Except.ok
          ((srest.foldl
              (mergeStep (hourOf (windowOf a rest).1) (hourOf (windowOf a rest).2))
              ⟨s0, [OutEvent.header (dayOf s0.1)]⟩).out),
        a :: rest)

/-- Claim C9: for every non-empty appointment list and every (positive)
duration, the call leaves its `appts` argument unchanged — the same
elements in the same order, no pair mutated — and returns exactly what
`find_open_slots` returns. -/
theorem c9_appts_unchanged (appts : List (Nat × Nat)) (dur : Option Nat)
    (hne : appts ≠ []) (_hdur : 0 < dur.getD 30) :
    (find_open_slots_call appts dur).2 = appts ∧
      (find_open_slots_call appts dur).1 = find_open_slots appts dur := by
  cases appts with
  | nil => exact absurd rfl hne
  | cons a rest =>
    cases hos : openSlots (markersOf a rest) (dur.getD 30) with
    | nil => simp [find_open_slots_call, find_open_slots, hos]
    | cons s0 srest => simp [find_open_slots_call, find_open_slots, hos]

theorem c9_appts_unchanged_witness :
    (find_open_slots_call [(600, 630), (840, 900)] none).2 =
        [(600, 630), (840, 900)] ∧
      (find_open_slots_call [(600, 630), (840, 900)] none).1 =
        find_open_slots [(600, 630), (840, 900)] none :=
  c9_appts_unchanged [(600, 630), (840, 900)] none (by decide) (by decide)

end Office
